import Mathlib

/-!
Verification of the Kubernetes job batch generator
(`motion_regression_batch/generate_bunch_jobs.py`).

Strings are modelled as `List Char` (`Str`), scalar YAML values as `PyVal`,
and Python dictionaries as association lists that record insertion order,
which is the order Python dictionaries iterate in.  `pyReplace` models
Python's `str.replace` (leftmost, non-overlapping, all occurrences) for a
non-empty pattern; the patterns used by the generator are always of the
form `$(name)` and hence non-empty.
-/

namespace JobGen

/-- Strings are lists of characters so that structural recursion and
induction are available. -/
abbrev Str := List Char

/-- Scalar values appearing in the variable-options YAML file: integers or
strings.  `toStr` is Python's `str()` on these. -/
inductive PyVal where
  | vInt : Int → PyVal
  | vStr : Str → PyVal
deriving DecidableEq, Repr

/-- Python `str()` of a scalar value. -/
def PyVal.toStr : PyVal → Str
  | .vInt n => (toString n).toList
  | .vStr s => s

/-- Boolean test that `pat` is an initial segment of `s`. -/
def leadsWith : Str → Str → Bool
  | [], _ => true
  | _ :: _, [] => false
  | p :: ps, c :: cs => p = c && leadsWith ps cs

/-- Boolean test that `pat` occurs as a contiguous substring of `s`
(at some position; the empty pattern occurs everywhere). -/
def hasOccur : Str → Str → Bool
  | [], pat => pat.isEmpty
  | c :: rest, pat => leadsWith pat (c :: rest) || hasOccur rest pat

/-- The placeholder text `$(name)` built from a variable name, exactly as in
`placeholder = f"$({var_name})"`. -/
def placeholder (name : Str) : Str := '$' :: '(' :: (name ++ [')'])

/-- Worker for `pyReplace`, structurally recursive on the string.  While
`skip` is positive the character belongs to an occurrence that has already
been replaced, so it is dropped without being emitted or re-scanned. -/
def replaceGo (pat rep : Str) : Nat → Str → Str
  | _, [] => []
  | skip + 1, _ :: rest => replaceGo pat rep skip rest
  | 0, c :: rest =>
    if pat ≠ [] ∧ leadsWith pat (c :: rest) = true then
      rep ++ replaceGo pat rep (pat.length - 1) rest
    else
      c :: replaceGo pat rep 0 rest

/-- Python's `s.replace(pat, rep)` for a non-empty `pat`: scan left to
right, replacing each non-overlapping occurrence of `pat` by `rep`.
(When `pat` is empty this returns `s` unchanged; the generator only ever
replaces the non-empty pattern `$(name)`.) -/
def pyReplace (pat rep s : Str) : Str := replaceGo pat rep 0 s

/-- Model of `KubernetesJobGenerator.substitute_variables`: for each
variable in mapping (insertion) order, replace every occurrence of
`$(var_name)` in the current result by `str(var_value)`. -/
def substitute_variables (template_content : Str) (vars : List (Str × PyVal)) : Str :=
  vars.foldl (fun result p => pyReplace (placeholder p.1) (PyVal.toStr p.2) result)
    template_content

/-- One head value consed onto every tail combination, preserving order:
the helper behind the `itertools.product` model. -/
def prodHead {α : Type} : List α → List (List α) → List (List α)
  | [], _ => []
  | x :: xs, rest => rest.map (fun t => x :: t) ++ prodHead xs rest

/-- Model of `itertools.product(*var_values)`: all tuples picking one
element from each list, leftmost list varying slowest (rightmost fastest). -/
def pyProduct {α : Type} : List (List α) → List (List α)
  | [] => [[]]
  | l :: ls => prodHead l (pyProduct ls)

/-- Model of `create_variable_combinations`: the names and value lists are
read off the options mapping in insertion order, the product is enumerated
by `itertools.product`, and each tuple is zipped back with the names
(`dict(zip(var_names, combination))`). -/
def create_variable_combinations (variable_options : List (Str × List PyVal)) :
    List (List (Str × PyVal)) :=
  let var_names := variable_options.map Prod.fst
  let var_values := variable_options.map Prod.snd
  (pyProduct var_values).map (fun combination => var_names.zip combination)

/-- Lexicographic order on strings by code point, Python's `<=` on `str`. -/
def strLE : Str → Str → Bool
  | [], _ => true
  | _ :: _, [] => false
  | a :: as, b :: bs => if a < b then true else if b < a then false else strLE as bs

/-- Comparison used to model `sorted(variables.items())`.  Python sorts the
pairs lexicographically; since a dictionary's keys are distinct the value
components are never compared, so comparing keys only agrees with the
source on every input it is actually run on. -/
def pairLE (p q : Str × PyVal) : Prop := strLE p.1 q.1 = true

instance : DecidableRel pairLE := fun p q => by
  unfold pairLE; infer_instance

/-- Model of the file-name derivation in `generate_job_file` when no
`job_name` is supplied: `"job_" + "_".join(f"{k}_{v}" for k, v in
sorted(variables.items())) + ".yaml"`. -/
def jobFileName (vars : List (Str × PyVal)) : Str :=
  let sortedItems := List.insertionSort pairLE vars
  let var_str := List.intercalate ['_']
    (sortedItems.map (fun p => p.1 ++ '_' :: PyVal.toStr p.2))
  "job_".toList ++ var_str ++ ".yaml".toList

/-- Add a file name to the output directory model; writing an existing
name overwrites it, so the directory holds each name at most once. -/
def addFile (disk : List Str) (f : Str) : List Str :=
  if f ∈ disk then disk else disk ++ [f]

/-- Remove a file name from the output directory model (`os.remove`). -/
def removeFile (disk : List Str) (f : Str) : List Str := disk.erase f

/-- Observable state accumulated by `generate_and_submit_batch`: the
`generated_files` list, the documents written, the names present in the
output directory, and the `successful_submissions` counter. -/
structure BatchState where
  generated : List Str
  docs : List Str
  disk : List Str
  success : Nat
deriving DecidableEq, Repr

/-- Model of `generate_job_file` with no explicit `job_name`: loading a
missing template raises (`none`); otherwise the template is substituted and
written under the derived file name. -/
def generate_job_file (tpl : Option Str) (vars : List (Str × PyVal)) :
    Option (Str × Str) :=
  match tpl with
  | none => none
  | some t => some (jobFileName vars, substitute_variables t vars)

/-- One iteration of the loop in `generate_and_submit_batch` on a single
combination.  `ok` is the outcome of `submit_job` for this combination
(`False` covers both a non-zero `kubectl` exit and a missing `kubectl`).
A raised generation error (missing template) is caught: the state is
unchanged and the batch continues. -/
def processOne (tpl : Option Str) (submit_jobs cleanup ok : Bool)
    (st : BatchState) (vars : List (Str × PyVal)) : BatchState :=
  match generate_job_file tpl vars with
  | none => st
  | some fd =>
    let st1 : BatchState :=
      { st with generated := st.generated ++ [fd.1],
                docs := st.docs ++ [fd.2],
                disk := addFile st.disk fd.1 }
    if submit_jobs then
      if ok then
        let st2 := { st1 with success := st1.success + 1 }
        if cleanup then { st2 with disk := removeFile st2.disk fd.1 } else st2
      else st1
    else st1

/-- The loop of `generate_and_submit_batch`: combinations are processed in
order, one at a time; `oks i` is the submission outcome for the i-th
combination. -/
def runBatch (tpl : Option Str) (submit_jobs cleanup : Bool) (oks : Nat → Bool) :
    List (List (Str × PyVal)) → Nat → BatchState → BatchState
  | [], _, st => st
  | c :: cs, i, st =>
    runBatch tpl submit_jobs cleanup oks cs (i + 1)
      (processOne tpl submit_jobs cleanup (oks i) st c)

/-- Model of `generate_and_submit_batch` run from the empty initial state.
The failed-submission count printed in the summary is
`generated.length - success`. -/
def generate_and_submit_batch (tpl : Option Str)
    (combos : List (List (Str × PyVal))) (submit_jobs cleanup : Bool)
    (oks : Nat → Bool) : BatchState :=
  runBatch tpl submit_jobs cleanup oks combos 0 ⟨[], [], [], 0⟩

/-- Observable outcome of `main`: the process exit code, the combinations
printed in dry-run mode, whether the output directory was created
(`KubernetesJobGenerator.__init__` runs `mkdir`), and the final batch state
when the batch ran. -/
structure MainResult where
  exitCode : Nat
  printedCombos : List (List (Str × PyVal))
  dirCreated : Bool
  batch : Option BatchState
deriving DecidableEq, Repr

/-- Model of `main`: a variable-file load failure exits with status 1
before anything else; dry-run prints the combinations and returns without
constructing the generator; otherwise the generator is constructed (which
creates the output directory) and the batch is run, after which `main`
falls off the end, so the process exits 0. -/
def main (variable_file : Option (List (Str × List PyVal))) (tpl : Option Str)
    (no_submit cleanup dry_run : Bool) (oks : Nat → Bool) : MainResult :=
  match variable_file with
  | none => ⟨1, [], false, none⟩
  | some variable_options =>
    let combos := create_variable_combinations variable_options
    if dry_run then ⟨0, combos, false, none⟩
    else
      ⟨0, [], true, some (generate_and_submit_batch tpl combos (!no_submit) cleanup oks)⟩

/-- File names written during a run of `main` (empty when the batch never
ran). -/
def MainResult.filesWritten (r : MainResult) : List Str :=
  match r.batch with
  | none => []
  | some st => st.generated

/-- Worker for `substituteSimultaneous`, structurally recursive on the
string; `skip` drops characters belonging to an already substituted
placeholder. -/
def simulGo (vars : List (Str × PyVal)) : Nat → Str → Str
  | _, [] => []
  | skip + 1, _ :: rest => simulGo vars skip rest
  | 0, c :: rest =>
    match vars.find? (fun p => leadsWith (placeholder p.1) (c :: rest)) with
    | some p => PyVal.toStr p.2 ++ simulGo vars ((placeholder p.1).length - 1) rest
    | none => c :: simulGo vars 0 rest

/-- Simultaneous substitution, modelled from the specification's wording:
"return a new string where every literal occurrence of `$(name)` is
replaced by the value's string representation", with placeholders that
match no variable left untouched.  The template is scanned once; at each
position the first variable whose placeholder occurs there is substituted,
and the scan resumes after the placeholder. -/
def substituteSimultaneous (vars : List (Str × PyVal)) (s : Str) : Str :=
  simulGo vars 0 s

/-- A variable name is plain when it is non-empty and avoids the three
characters `$`, `(`, `)` that delimit placeholders. -/
def plainName (n : Str) : Bool :=
  !n.isEmpty && n.all (fun c => c ≠ '$' && c ≠ '(' && c ≠ ')')

/-- True when a string contains no `$` character. -/
def noDollar (s : Str) : Bool := s.all (fun c => c ≠ '$')

/-- A token of a parsed template: either a single character that is not
`$`, or a placeholder `$(name)` with a plain name. -/
inductive Tok where
  | raw : Char → Tok
  | ph : Str → Tok
deriving DecidableEq, Repr

/-- The text of one token. -/
def renderTok : Tok → Str
  | .raw c => [c]
  | .ph n => placeholder n

/-- The text of a token list. -/
def render (toks : List Tok) : Str :=
  toks.foldr (fun t acc => renderTok t ++ acc) []

/-- Well-formedness of a token list: raw characters are never `$` (every
`$` of the template starts a placeholder) and placeholder names are plain. -/
def goodToks (toks : List Tok) : Bool :=
  toks.all (fun t =>
    match t with
    | .raw c => c ≠ '$'
    | .ph n => plainName n)

/-- Look up a name in a combination (first binding wins, as in a Python
dictionary built without key collisions). -/
def lookupVar (vars : List (Str × PyVal)) (n : Str) : Option PyVal :=
  match vars.find? (fun p => p.1 = n) with
  | some p => some p.2
  | none => none

/-- Token-level effect of one variable's pass on one token: the variable's
placeholders become the raw characters of the replacement, everything else
stays. -/
def passOneTok (n rep : Str) : Tok → List Tok
  | .raw c => [Tok.raw c]
  | .ph m => if m = n then rep.map Tok.raw else [Tok.ph m]

/-- Token-level effect of substituting one variable over a token list. -/
def passToks (n : Str) (rep : Str) (toks : List Tok) : List Tok :=
  toks.foldr (fun t acc => passOneTok n rep t ++ acc) []

/-- Token-level effect of a whole combination on one token: placeholders of
bound names become the raw characters of their values, unbound placeholders
stay. -/
def substOneTok (vars : List (Str × PyVal)) : Tok → List Tok
  | .raw c => [Tok.raw c]
  | .ph m =>
    match lookupVar vars m with
    | some v => (PyVal.toStr v).map Tok.raw
    | none => [Tok.ph m]

/-- Token-level effect of substituting a whole combination. -/
def substToks (vars : List (Str × PyVal)) (toks : List Tok) : List Tok :=
  toks.foldr (fun t acc => substOneTok vars t ++ acc) []

/-- Every placeholder token of the parsed template names a variable bound
in the combination. -/
def phCovered (vars : List (Str × PyVal)) (toks : List Tok) : Bool :=
  toks.all (fun t =>
    match t with
    | .raw _ => true
    | .ph m => (lookupVar vars m).isSome)

/-- File names still on disk after the batch: the file of the i-th
combination is kept unless its submission succeeded and cleanup was
requested. -/
def keptFiles (cleanup : Bool) (oks : Nat → Bool) :
    Nat → List (List (Str × PyVal)) → List Str
  | _, [] => []
  | i, c :: cs =>
    (if cleanup && oks i then [] else [jobFileName c]) ++ keptFiles cleanup oks (i + 1) cs

/-- Number of successful submissions among the combinations. -/
def countSucc (oks : Nat → Bool) : Nat → List (List (Str × PyVal)) → Nat
  | _, [] => 0
  | i, _ :: cs => (if oks i then 1 else 0) + countSucc oks (i + 1) cs

/-- Number of failed submissions among the combinations. -/
def countFail (oks : Nat → Bool) : Nat → List (List (Str × PyVal)) → Nat
  | _, [] => 0
  | i, _ :: cs => (if oks i then 0 else 1) + countFail oks (i + 1) cs

/-- Product of the sizes of the value lists strictly to the right of
position `j`: the stride at which variable `j` changes in the enumerated
combinations. -/
def sufProd (sizes : List Nat) (j : Nat) : Nat := ((sizes.drop (j + 1)).prod)

/-! Basic lemmas about the product enumerator. -/

theorem prodHead_nil_right {α : Type} (xs : List α) : prodHead xs ([] : List (List α)) = [] := by
  induction xs with
  | nil => rfl
  | cons x xs ih => simp [prodHead, ih]

theorem pyProduct_eq_nil_of_mem_nil {α : Type} {ls : List (List α)}
    (h : [] ∈ ls) : pyProduct ls = [] := by
  induction ls with
  | nil => cases h
  | cons l ls ih =>
    rcases List.mem_cons.mp h with h | h
    · subst h; rfl
    · simp [pyProduct, ih h, prodHead_nil_right]

theorem prodHead_length {α : Type} (xs : List α) (rest : List (List α)) :
    (prodHead xs rest).length = xs.length * rest.length := by
  induction xs with
  | nil => simp [prodHead]
  | cons x xs ih => simp [prodHead, ih, Nat.succ_mul, Nat.add_comm]

theorem pyProduct_length {α : Type} (ls : List (List α)) :
    (pyProduct ls).length = (ls.map List.length).prod := by
  induction ls with
  | nil => rfl
  | cons l ls ih => simp [pyProduct, prodHead_length, ih]

theorem mem_prodHead {α : Type} {xs : List α} {rest : List (List α)} {r : List α}
    (h : r ∈ prodHead xs rest) : ∃ x ∈ xs, ∃ t ∈ rest, r = x :: t := by
  induction xs with
  | nil => cases h
  | cons x xs ih =>
    rcases List.mem_append.mp h with h | h
    · rcases List.mem_map.mp h with ⟨t, ht, rfl⟩
      exact ⟨x, List.mem_cons_self _ _, t, ht, rfl⟩
    · rcases ih h with ⟨y, hy, t, ht, rfl⟩
      exact ⟨y, List.mem_cons_of_mem _ hy, t, ht, rfl⟩

theorem length_of_mem_pyProduct {α : Type} {ls : List (List α)} {r : List α}
    (h : r ∈ pyProduct ls) : r.length = ls.length := by
  induction ls generalizing r with
  | nil => simp [pyProduct] at h; simp [h]
  | cons l ls ih =>
    rcases mem_prodHead h with ⟨x, _, t, ht, rfl⟩
    simp [ih ht]

/-- Claim C8: an empty value list for any variable makes the whole product
empty, and the enumerator is a total function, so no error is raised. -/
theorem empty_option_list_yields_no_combinations
    (variable_options : List (Str × List PyVal)) (p : Str × List PyVal)
    (hmem : p ∈ variable_options) (hempty : p.2 = []) :
    create_variable_combinations variable_options = [] := by
  have h : [] ∈ variable_options.map Prod.snd := by
    rcases hempty ▸ List.mem_map_of_mem Prod.snd hmem with h
    simpa [hempty] using h
  simp [create_variable_combinations, pyProduct_eq_nil_of_mem_nil h]

/-- Witness for C8 at a concrete input with an empty value list. -/
theorem empty_option_list_yields_no_combinations_witness :
    (('b'.toString.toList, ([] : List PyVal)) ∈
      [("a".toList, [PyVal.vInt 1]), ("b".toList, [])]) ∧
    create_variable_combinations [("a".toList, [PyVal.vInt 1]), ("b".toList, [])] = [] := by
  refine ⟨by decide, empty_option_list_yields_no_combinations _ ("b".toList, []) (by decide) rfl⟩

/-- Documents written by the batch do not depend on the submit, cleanup and
outcome parameters. -/
theorem processOne_docs (tpl : Option Str) (sj cl ok : Bool) (st : BatchState)
    (c : List (Str × PyVal)) :
    (processOne tpl sj cl ok st c).docs =
      st.docs ++ (match generate_job_file tpl c with
        | none => []
        | some fd => [fd.2]) := by
  cases tpl with
  | none => simp [processOne, generate_job_file]
  | some t =>
    cases sj <;> cases cl <;> cases ok <;>
      simp [processOne, generate_job_file]

theorem runBatch_docs (t : Str) (sj cl : Bool) (oks : Nat → Bool) :
    ∀ (cs : List (List (Str × PyVal))) (i : Nat) (st : BatchState),
    (runBatch (some t) sj cl oks cs i st).docs =
      st.docs ++ cs.map (fun c => substitute_variables t c) := by
  intro cs
  induction cs with
  | nil => intro i st; simp [runBatch]
  | cons c cs ih =>
    intro i st
    rw [runBatch, ih, processOne_docs]
    simp [generate_job_file]

/-- Claim C10: the empty variable-options mapping produces exactly one
combination, the empty mapping; substituting it changes nothing, so the
batch generator produces one document equal to the template. -/
theorem empty_options_yield_one_empty_combination (t : Str) (sj cl : Bool)
    (oks : Nat → Bool) :
    create_variable_combinations [] = [[]] ∧
    substitute_variables t [] = t ∧
    (generate_and_submit_batch (some t) (create_variable_combinations []) sj cl oks).docs
      = [t] := by
  refine ⟨rfl, rfl, ?_⟩
  rw [show create_variable_combinations [] = [[]] from rfl,
    generate_and_submit_batch, runBatch_docs]
  rfl

/-- Claim C9: in dry-run mode the combinations are printed, the output
directory is never created, no file is written and no batch (hence no
submission) runs; the process exits 0. -/
theorem dry_run_writes_nothing (variable_options : List (Str × List PyVal))
    (tpl : Option Str) (no_submit cleanup : Bool) (oks : Nat → Bool) :
    main (some variable_options) tpl no_submit cleanup true oks =
      ⟨0, create_variable_combinations variable_options, false, none⟩ ∧
    (main (some variable_options) tpl no_submit cleanup true oks).filesWritten = [] := by
  constructor
  · simp [main]
  · simp [main, MainResult.filesWritten]

/-- Counterexample refuting claim C3: with a present variable file but a
missing template file, the process exits 0 (the claim demands a non-zero
exit status).  No document is generated, but only because every
per-combination generation attempt raises and is caught. -/
theorem missing_template_counterexample :
    (main (some [("a".toList, [PyVal.vInt 1])]) none false false false
        (fun _ => true)).exitCode = 0 ∧
    (main (some [("a".toList, [PyVal.vInt 1])]) none false false false
        (fun _ => true)).batch = some ⟨[], [], [], 0⟩ := by
  constructor <;> rfl

theorem runBatch_none (sj cl : Bool) (oks : Nat → Bool) :
    ∀ (cs : List (List (Str × PyVal))) (i : Nat) (st : BatchState),
    runBatch none sj cl oks cs i st = st := by
  intro cs
  induction cs with
  | nil => intro i st; rfl
  | cons c cs ih => intro i st; rw [runBatch, ih]; rfl

/-- Amended claim C3: a missing or unreadable template is not fatal.  Each
per-combination generation attempt raises, the exception is caught and the
batch continues, so no document is generated and the process still exits 0.
Per-combination generation errors and submission failures never cause a
non-zero exit; only a variable-file load failure exits non-zero (status 1). -/
theorem missing_template_is_not_fatal (variable_options : List (Str × List PyVal))
    (tpl : Option Str) (no_submit cleanup dry_run : Bool) (oks : Nat → Bool) :
    (main (some variable_options) tpl no_submit cleanup dry_run oks).exitCode = 0 ∧
    (main (some variable_options) none no_submit cleanup false oks).batch =
      some ⟨[], [], [], 0⟩ ∧
    (main none tpl no_submit cleanup dry_run oks).exitCode = 1 := by
  refine ⟨?_, ?_, rfl⟩
  · by_cases h : dry_run = true <;> simp [main, h]
  · simp [main, generate_and_submit_batch, runBatch_none]

/-- Counterexample refuting claim C2: with variables `a` (value `"$(b)"`)
then `b` (value `"X"`), the pass for `a` introduces the text `$(b)`, and
the remaining pass for `b` does substitute that introduced text: the final
output is `X` and no `$(b)` survives, while the claim asserts introduced
text is never substituted by the remaining passes. -/
theorem resubstitution_counterexample :
    substitute_variables "$(a)".toList [("a".toList, PyVal.vStr "$(b)".toList)]
      = "$(b)".toList ∧
    substitute_variables "$(a)".toList
      [("a".toList, PyVal.vStr "$(b)".toList), ("b".toList, PyVal.vStr "X".toList)]
      = "X".toList ∧
    hasOccur (substitute_variables "$(a)".toList
      [("a".toList, PyVal.vStr "$(b)".toList), ("b".toList, PyVal.vStr "X".toList)])
      (placeholder "b".toList) = false := by
  refine ⟨by decide, by decide, by decide⟩

/-- Amended claim C2: `substitute_variables` processes the variables
sequentially in mapping order, one full `replace` pass per variable.  Text
introduced by a substituted value is not re-scanned by that same pass and
is not substituted by passes of variables already processed, but when it
matches the placeholder of a variable processed later, that later pass does
substitute it.  The first conjunct states the sequential processing; the
remaining concrete conjuncts exhibit, in order: an introduced occurrence of
the same variable's placeholder surviving its own single pass, an
introduced occurrence of an earlier variable's placeholder surviving the
run, and an introduced occurrence of a later variable's placeholder being
substituted by the later pass. -/
theorem sequential_single_pass_substitution (t n : Str) (v : PyVal)
    (vs : List (Str × PyVal)) :
    substitute_variables t ((n, v) :: vs) =
      substitute_variables (pyReplace (placeholder n) (PyVal.toStr v) t) vs ∧
    substitute_variables "$(a)".toList [("a".toList, PyVal.vStr "x$(a)".toList)]
      = "x$(a)".toList ∧
    substitute_variables "$(b)".toList
      [("a".toList, PyVal.vStr "1".toList), ("b".toList, PyVal.vStr "$(a)".toList)]
      = "$(a)".toList ∧
    substitute_variables "$(a)".toList
      [("a".toList, PyVal.vStr "$(b)".toList), ("b".toList, PyVal.vStr "X".toList)]
      = "X".toList := by
  exact ⟨rfl, by decide, by decide, by decide⟩

/-! Order lemmas for the file-name derivation. -/

theorem strLE_total : ∀ a b : Str, strLE a b = true ∨ strLE b a = true
  | [], _ => Or.inl rfl
  | _ :: _, [] => Or.inr rfl
  | x :: as, y :: bs => by
    rcases lt_trichotomy x y with h | h | h
    · left; simp [strLE, h]
    · subst h
      rcases strLE_total as bs with ih | ih <;> [left; right] <;>
        simp [strLE, lt_irrefl, ih]
    · right; simp [strLE, h]

theorem strLE_cons_iff {x y : Char} {as bs : Str} :
    strLE (x :: as) (y :: bs) = true ↔
      x < y ∨ (¬ x < y ∧ ¬ y < x ∧ strLE as bs = true) := by
  by_cases hxy : x < y
  · simp [strLE, hxy]
  · by_cases hyx : y < x
    · simp [strLE, hxy, hyx]
    · simp [strLE, hxy, hyx]

theorem strLE_trans : ∀ {a b c : Str}, strLE a b = true → strLE b c = true →
    strLE a c = true
  | [], _, _, _, _ => rfl
  | _ :: _, [], _, h, _ => by simp [strLE] at h
  | _ :: _, _ :: _, [], _, h => by simp [strLE] at h
  | x :: as, y :: bs, z :: cs, h1, h2 => by
    rcases strLE_cons_iff.mp h1 with hxy | ⟨hxy, hyx, r1⟩ <;>
      rcases strLE_cons_iff.mp h2 with hyz | ⟨hyz, hzy, r2⟩
    · exact strLE_cons_iff.mpr (Or.inl (lt_trans hxy hyz))
    · exact strLE_cons_iff.mpr (Or.inl (lt_of_lt_of_le hxy (le_of_not_lt hzy)))
    · exact strLE_cons_iff.mpr (Or.inl (lt_of_le_of_lt (le_of_not_lt hyx) hyz))
    · by_cases hxz : x < z
      · exact strLE_cons_iff.mpr (Or.inl hxz)
      · have hzx : ¬ z < x :=
          fun h => absurd (lt_of_lt_of_le h (le_of_not_lt hyx)) hzy
        exact strLE_cons_iff.mpr (Or.inr ⟨hxz, hzx, strLE_trans r1 r2⟩)

theorem strLE_antisymm : ∀ {a b : Str}, strLE a b = true → strLE b a = true → a = b
  | [], [], _, _ => rfl
  | [], _ :: _, _, h2 => by simp [strLE] at h2
  | _ :: _, [], h1, _ => by simp [strLE] at h1
  | x :: as, y :: bs, h1, h2 => by
    rcases strLE_cons_iff.mp h1 with hxy | ⟨hxy, hyx, r1⟩
    · rcases strLE_cons_iff.mp h2 with hyx | ⟨hyx, hxy', _⟩
      · exact absurd hxy (lt_asymm hyx)
      · exact absurd hxy hxy'
    · rcases strLE_cons_iff.mp h2 with hyx' | ⟨_, _, r2⟩
      · exact absurd hyx' hyx
      · have hxy' : x = y := le_antisymm (le_of_not_lt hyx) (le_of_not_lt hxy)
        rw [hxy', strLE_antisymm r1 r2]

instance : IsTotal (Str × PyVal) pairLE := ⟨fun a b => strLE_total a.1 b.1⟩

instance : IsTrans (Str × PyVal) pairLE := ⟨fun _ _ _ h1 h2 => strLE_trans h1 h2⟩

/-- Strict version of `pairLE`, used to see that sorting a
distinct-key combination has a unique result. -/
def pairLT (p q : Str × PyVal) : Prop := pairLE p q ∧ p.1 ≠ q.1

instance : IsAntisymm (Str × PyVal) pairLT :=
  ⟨fun _ _ h1 h2 => absurd (strLE_antisymm h1.1 h2.1) h1.2⟩

theorem sorted_pairLT_of_nodup {l : List (Str × PyVal)}
    (hs : List.Sorted pairLE l) (hnd : (l.map Prod.fst).Nodup) :
    List.Sorted pairLT l := by
  have hne : List.Pairwise (fun p q : Str × PyVal => p.1 ≠ q.1) l :=
    List.pairwise_map.mp hnd
  exact (hs.and hne).imp (fun h => ⟨h.1, h.2⟩)

/-- Claim C6: the derived file name depends only on the combination as a
mapping: any two insertion orders of the same distinct-key combination
yield the same file name (the entries are sorted by key before rendering).
The concrete conjunct shows the shape: entries sorted by key, each rendered
`key_value`, joined with underscores, prefixed `job_` and suffixed
`.yaml`. -/
theorem job_file_name_deterministic (c c' : List (Str × PyVal))
    (hnd : (c.map Prod.fst).Nodup) (hperm : c.Perm c') :
    jobFileName c = jobFileName c' ∧
    jobFileName [("b".toList, PyVal.vStr "p".toList), ("a".toList, PyVal.vInt 1)]
      = "job_a_1_b_p.yaml".toList := by
  refine ⟨?_, by decide⟩
  have hperm1 : (List.insertionSort pairLE c).Perm (List.insertionSort pairLE c') :=
    ((List.perm_insertionSort pairLE c).trans hperm).trans
      (List.perm_insertionSort pairLE c').symm
  have hnd1 : ((List.insertionSort pairLE c).map Prod.fst).Nodup :=
    (((List.perm_insertionSort pairLE c).map Prod.fst).nodup_iff).mpr hnd
  have hnd2 : ((List.insertionSort pairLE c').map Prod.fst).Nodup :=
    ((hperm1.map Prod.fst).nodup_iff).mp hnd1
  have heq : List.insertionSort pairLE c = List.insertionSort pairLE c' :=
    List.eq_of_perm_of_sorted hperm1
      (sorted_pairLT_of_nodup (List.sorted_insertionSort pairLE c) hnd1)
      (sorted_pairLT_of_nodup (List.sorted_insertionSort pairLE c') hnd2)
  simp [jobFileName, heq]

/-- Witness for C6: two insertion orders of the mapping `{a: 1, b: "p"}`
give the same file name. -/
theorem job_file_name_deterministic_witness :
    (([("a".toList, PyVal.vInt 1), ("b".toList, PyVal.vStr "p".toList)].map
        Prod.fst).Nodup) ∧
    jobFileName [("a".toList, PyVal.vInt 1), ("b".toList, PyVal.vStr "p".toList)] =
      jobFileName [("b".toList, PyVal.vStr "p".toList), ("a".toList, PyVal.vInt 1)] :=
  ⟨by decide, (job_file_name_deterministic _ _ (by decide) (by decide)).1⟩

/-! Closed form for the batch loop when the template is present and
submission is on. -/

theorem countSucc_add_countFail (oks : Nat → Bool) :
    ∀ (cs : List (List (Str × PyVal))) (i : Nat),
    countSucc oks i cs + countFail oks i cs = cs.length := by
  intro cs
  induction cs with
  | nil => intro i; rfl
  | cons c cs ih =>
    intro i
    have := ih (i + 1)
    by_cases h : oks i = true <;> simp [countSucc, countFail, h] <;> omega

theorem keptFiles_subset {cleanup : Bool} {oks : Nat → Bool} :
    ∀ {cs : List (List (Str × PyVal))} {i : Nat} {x : Str},
    x ∈ keptFiles cleanup oks i cs → x ∈ cs.map jobFileName := by
  intro cs
  induction cs with
  | nil => intro i x h; cases h
  | cons c cs ih =>
    intro i x h
    rw [keptFiles] at h
    rcases List.mem_append.mp h with h | h
    · have hx : x = jobFileName c := by
        by_cases hc : (cleanup && oks i) = true
        · rw [if_pos hc] at h; cases h
        · rw [if_neg hc] at h; simpa using h
      rw [List.map_cons, hx]
      exact List.mem_cons_self _ _
    · exact List.mem_cons_of_mem _ (ih h)

theorem keptFiles_no_cleanup (oks : Nat → Bool) :
    ∀ (cs : List (List (Str × PyVal))) (i : Nat),
    keptFiles false oks i cs = cs.map jobFileName := by
  intro cs
  induction cs with
  | nil => intro i; rfl
  | cons c cs ih => intro i; simp [keptFiles, ih (i + 1)]

theorem runBatch_closed (t : Str) (cleanup : Bool) (oks : Nat → Bool) :
    ∀ (cs : List (List (Str × PyVal))) (i : Nat) (st : BatchState),
    List.Pairwise (fun c c' => jobFileName c ≠ jobFileName c') cs →
    (∀ c ∈ cs, jobFileName c ∉ st.disk) →
    runBatch (some t) true cleanup oks cs i st =
      ⟨st.generated ++ cs.map jobFileName,
       st.docs ++ cs.map (fun c => substitute_variables t c),
       st.disk ++ keptFiles cleanup oks i cs,
       st.success + countSucc oks i cs⟩ := by
  intro cs
  induction cs with
  | nil => intro i st _ _; simp [runBatch, keptFiles, countSucc]
  | cons c cs ih =>
    intro i st hpw hdisk
    have hc : jobFileName c ∉ st.disk := hdisk c (List.mem_cons_self _ _)
    have hpw' : List.Pairwise (fun c c' => jobFileName c ≠ jobFileName c') cs :=
      hpw.of_cons
    have hne : ∀ c' ∈ cs, jobFileName c ≠ jobFileName c' :=
      fun c' h => (List.pairwise_cons.mp hpw).1 c' h
    rw [runBatch]
    by_cases hok : oks i = true
    · by_cases hcl : cleanup = true
      · have hstep : processOne (some t) true cleanup (oks i) st c =
            ⟨st.generated ++ [jobFileName c],
             st.docs ++ [substitute_variables t c],
             st.disk, st.success + 1⟩ := by
          have herase : (st.disk ++ [jobFileName c]).erase (jobFileName c) = st.disk := by
            rw [List.erase_append_right _ hc]
            simp
          simp [processOne, generate_job_file, hok, hcl, addFile, removeFile, hc, herase]
        rw [hstep, ih (i + 1) _ hpw' ?_]
        · simp [keptFiles, countSucc, hok, hcl]
          omega
        · intro c' h
          exact hdisk c' (List.mem_cons_of_mem _ h)
      · have hcl' : cleanup = false := by simpa using hcl
        have hstep : processOne (some t) true cleanup (oks i) st c =
            ⟨st.generated ++ [jobFileName c],
             st.docs ++ [substitute_variables t c],
             st.disk ++ [jobFileName c], st.success + 1⟩ := by
          simp [processOne, generate_job_file, hok, hcl', addFile, hc]
        rw [hstep]
        rw [ih (i + 1) _ hpw' ?_]
        · simp [keptFiles, countSucc, hok, hcl']
          omega
        · intro c' h
          simp only [List.mem_append, List.mem_singleton]
          rintro (h' | h')
          · exact hdisk c' (List.mem_cons_of_mem _ h) h'
          · exact (hne c' h) h'.symm
    · have hok' : oks i = false := by simpa using hok
      have hstep : processOne (some t) true cleanup (oks i) st c =
          ⟨st.generated ++ [jobFileName c],
           st.docs ++ [substitute_variables t c],
           st.disk ++ [jobFileName c], st.success⟩ := by
        simp [processOne, generate_job_file, hok', addFile, hc]
      rw [hstep]
      rw [ih (i + 1) _ hpw' ?_]
      · simp [keptFiles, countSucc, hok']
      · intro c' h
        simp only [List.mem_append, List.mem_singleton]
        rintro (h' | h')
        · exact hdisk c' (List.mem_cons_of_mem _ h) h'
        · exact (hne c' h) h'.symm

theorem mem_keptFiles_iff (oks : Nat → Bool) :
    ∀ (cs : List (List (Str × PyVal))) (i0 i : Nat) (hi : i < cs.length),
    List.Pairwise (fun c c' => jobFileName c ≠ jobFileName c') cs →
    (jobFileName (cs.get ⟨i, hi⟩) ∈ keptFiles true oks i0 cs ↔ oks (i0 + i) = false) := by
  intro cs
  induction cs with
  | nil => intro i0 i hi; cases (Nat.not_lt_zero i) hi
  | cons c cs ih =>
    intro i0 i hi hpw
    have hne : ∀ c' ∈ cs, jobFileName c ≠ jobFileName c' :=
      fun c' h => (List.pairwise_cons.mp hpw).1 c' h
    match i with
    | 0 =>
      simp only [List.get]
      have hnotmem : jobFileName c ∉ keptFiles true oks (i0 + 1) cs := by
        intro h
        rcases List.mem_map.mp (keptFiles_subset h) with ⟨c', hc', heq⟩
        exact hne c' hc' heq.symm
      by_cases hok : oks i0 = true
      · simp [keptFiles, hok, hnotmem]
      · have hok' : oks i0 = false := by simpa using hok
        simp [keptFiles, hok']
    | j + 1 =>
      have hj : j < cs.length := Nat.lt_of_succ_lt_succ hi
      have hget : (c :: cs).get ⟨j + 1, hi⟩ = cs.get ⟨j, hj⟩ := rfl
      rw [hget]
      have hmem : jobFileName (cs.get ⟨j, hj⟩) ∈ cs.map jobFileName :=
        List.mem_map_of_mem _ (cs.get_mem _ _)
      have hne' : jobFileName (cs.get ⟨j, hj⟩) ≠ jobFileName c := by
        rcases List.mem_map.mp hmem with ⟨c', hc', heq⟩
        rw [← heq]
        exact fun h => hne c' hc' h.symm
      have harith : i0 + 1 + j = i0 + (j + 1) := by omega
      rw [keptFiles]
      constructor
      · intro h
        rcases List.mem_append.mp h with h | h
        · by_cases hc : (true && oks i0) = true
          · rw [if_pos hc] at h; cases h
          · rw [if_neg hc] at h
            simp only [List.mem_singleton] at h
            exact absurd h hne'
        · rw [← harith]
          exact (ih (i0 + 1) j hj hpw.of_cons).mp h
      · intro h
        refine List.mem_append.mpr (Or.inr ?_)
        exact (ih (i0 + 1) j hj hpw.of_cons).mpr (by rw [harith]; exact h)

/-- Claim C7: with cleanup requested, a combination whose submission fails
leaves its generated file on disk, counts as a failed submission in the
final summary, and does not stop the batch: every combination's file is
generated.  A file is absent from the disk at the end exactly when its
submission succeeded (and cleanup was requested); with cleanup off nothing
is deleted. -/
theorem failed_submission_keeps_file (t : Str)
    (combos : List (List (Str × PyVal))) (oks : Nat → Bool) (st : BatchState)
    (hst : st = generate_and_submit_batch (some t) combos true true oks)
    (hpw : List.Pairwise (fun c c' => jobFileName c ≠ jobFileName c') combos) :
    st.generated = combos.map jobFileName ∧
    (∀ i (hi : i < combos.length),
      (jobFileName (combos.get ⟨i, hi⟩) ∈ st.disk ↔ oks i = false)) ∧
    st.generated.length - st.success = countFail oks 0 combos ∧
    (generate_and_submit_batch (some t) combos true false oks).disk =
      combos.map jobFileName := by
  have hrun := runBatch_closed t true oks combos 0 ⟨[], [], [], 0⟩ hpw
    (by intro c h; simp)
  have hrun' := runBatch_closed t false oks combos 0 ⟨[], [], [], 0⟩ hpw
    (by intro c h; simp)
  rw [generate_and_submit_batch, hrun] at hst
  refine ⟨?_, ?_, ?_, ?_⟩
  · rw [hst]; simp
  · intro i hi
    rw [hst]
    simpa using mem_keptFiles_iff oks combos 0 i hi hpw
  · rw [hst]
    simp only [List.nil_append, List.length_map, Nat.zero_add]
    have := countSucc_add_countFail oks combos 0
    omega
  · rw [generate_and_submit_batch, hrun']
    simp [keptFiles_no_cleanup]

/-- Witness for C7 on the combinations of `{a: [1, 2]}` where only the
first submission succeeds: both files are generated, the first is cleaned
up, the second (failed) remains on disk, and one failure is counted. -/
theorem failed_submission_keeps_file_witness :
    List.Pairwise (fun c c' => jobFileName c ≠ jobFileName c')
      (create_variable_combinations [("a".toList, [PyVal.vInt 1, PyVal.vInt 2])]) ∧
    (generate_and_submit_batch (some "T$(a)".toList)
        (create_variable_combinations [("a".toList, [PyVal.vInt 1, PyVal.vInt 2])])
        true true (fun i => decide (i = 0))).generated =
      (create_variable_combinations
        [("a".toList, [PyVal.vInt 1, PyVal.vInt 2])]).map jobFileName :=
  ⟨by decide,
    (failed_submission_keeps_file "T$(a)".toList _ (fun i => decide (i = 0)) _ rfl
      (by decide)).1⟩

/-! String lemmas for the substitution analysis. -/

theorem leadsWith_append_self : ∀ (pat s : Str), leadsWith pat (pat ++ s) = true
  | [], _ => rfl
  | p :: ps, s => by simp [leadsWith, leadsWith_append_self ps s]

theorem replaceGo_skip (pat rep : Str) :
    ∀ (s : Str) (k : Nat), replaceGo pat rep k s = replaceGo pat rep 0 (s.drop k) := by
  intro s
  induction s with
  | nil => intro k; simp [replaceGo]
  | cons c rest ih =>
    intro k
    match k with
    | 0 => rfl
    | m + 1 => simp [replaceGo, ih m]

theorem pyReplace_nil (pat rep : Str) : pyReplace pat rep [] = [] := rfl

theorem pyReplace_cons_no_match {pat : Str} (rep : Str) {c : Char} {s : Str}
    (h : leadsWith pat (c :: s) = false) :
    pyReplace pat rep (c :: s) = c :: pyReplace pat rep s := by
  rw [pyReplace, replaceGo, if_neg]
  · rfl
  · rintro ⟨-, h'⟩
    rw [h] at h'
    cases h'

theorem pyReplace_match {pat : Str} (rep : Str) (s : Str) (hne : pat ≠ []) :
    pyReplace pat rep (pat ++ s) = rep ++ pyReplace pat rep s := by
  match pat, hne with
  | p :: ps, _ =>
    rw [pyReplace, List.cons_append, replaceGo, if_pos]
    · rw [replaceGo_skip]
      simp [pyReplace]
    · exact ⟨by simp, by rw [← List.cons_append]; exact leadsWith_append_self _ s⟩

theorem leadsWith_cons_ne {p c : Char} {ps s : Str} (h : p ≠ c) :
    leadsWith (p :: ps) (c :: s) = false := by
  simp [leadsWith, h]

theorem pyReplace_chunk {pat' rep : Str} :
    ∀ {chunk : Str} (s : Str), (∀ c ∈ chunk, c ≠ '$') →
    pyReplace ('$' :: pat') rep (chunk ++ s) = chunk ++ pyReplace ('$' :: pat') rep s := by
  intro chunk
  induction chunk with
  | nil => intro s _; rfl
  | cons c rest ih =>
    intro s hch
    have hc : c ≠ '$' := hch c (List.mem_cons_self _ _)
    rw [List.cons_append,
      pyReplace_cons_no_match rep (leadsWith_cons_ne (fun h => hc h.symm)),
      ih s (fun c h => hch c (List.mem_cons_of_mem _ h)), List.cons_append]

theorem leadsWith_name_mismatch :
    ∀ {m n : Str} {s : Str}, (∀ c ∈ m, c ≠ '$' ∧ c ≠ '(' ∧ c ≠ ')') →
    (∀ c ∈ n, c ≠ '$' ∧ c ≠ '(' ∧ c ≠ ')') → m ≠ n →
    leadsWith (n ++ [')']) (m ++ ')' :: s) = false
  | [], [], _, _, _, hne => absurd rfl hne
  | [], d :: n', s, _, hn, _ => by
    have hd : d ≠ ')' := (hn d (List.mem_cons_self _ _)).2.2
    simpa using leadsWith_cons_ne hd
  | c :: m', [], s, hm, _, _ => by
    have hc : c ≠ ')' := (hm c (List.mem_cons_self _ _)).2.2
    simpa using leadsWith_cons_ne (fun h => hc h.symm)
  | c :: m', d :: n', s, hm, hn, hne => by
    by_cases hdc : d = c
    · subst hdc
      have hne' : m' ≠ n' := fun h => hne (by rw [h])
      have ih := leadsWith_name_mismatch (s := s)
        (fun c h => hm c (List.mem_cons_of_mem _ h))
        (fun c h => hn c (List.mem_cons_of_mem _ h)) hne'
      simpa [leadsWith] using ih
    · simpa using leadsWith_cons_ne hdc

theorem plainName_mem {n : Str} (h : plainName n = true) :
    ∀ c ∈ n, c ≠ '$' ∧ c ≠ '(' ∧ c ≠ ')' := by
  intro c hc
  have := (List.all_eq_true.mp (Bool.and_elim_right h)) c hc
  simp at this
  exact ⟨this.1.1, this.1.2, this.2⟩

theorem leadsWith_placeholder_mismatch {m n : Str} (s : Str)
    (hm : plainName m = true) (hn : plainName n = true) (hne : m ≠ n) :
    leadsWith (placeholder n) (placeholder m ++ s) = false := by
  have hmm := plainName_mem hm
  have hnm := plainName_mem hn
  have h := leadsWith_name_mismatch (s := s) hmm hnm hne
  simpa [placeholder, leadsWith] using h

/-! Token lemmas: a template whose every `$` starts a plain-name
placeholder decomposes into tokens, and substitution acts token-wise. -/

theorem render_nil : render [] = [] := rfl

theorem render_cons (t : Tok) (toks : List Tok) :
    render (t :: toks) = renderTok t ++ render toks := rfl

theorem render_append : ∀ (l₁ l₂ : List Tok),
    render (l₁ ++ l₂) = render l₁ ++ render l₂ := by
  intro l₁ l₂
  induction l₁ with
  | nil => rfl
  | cons t l ih => simp [render_cons, ih]

theorem render_raws : ∀ (s : Str), render (s.map Tok.raw) = s := by
  intro s
  induction s with
  | nil => rfl
  | cons c s ih => simp [render_cons, ih, renderTok]

theorem passToks_nil (n rep : Str) : passToks n rep [] = [] := rfl

theorem passToks_cons (n rep : Str) (t : Tok) (toks : List Tok) :
    passToks n rep (t :: toks) = passOneTok n rep t ++ passToks n rep toks := rfl

theorem substToks_cons (vars : List (Str × PyVal)) (t : Tok) (toks : List Tok) :
    substToks vars (t :: toks) = substOneTok vars t ++ substToks vars toks := rfl

theorem goodToks_cons {t : Tok} {toks : List Tok} (h : goodToks (t :: toks) = true) :
    (match t with
     | .raw c => c ≠ '$'
     | .ph n => plainName n = true) ∧ goodToks toks = true := by
  have h' := List.all_eq_true.mp h
  refine ⟨?_, List.all_eq_true.mpr (fun t ht => h' t (List.mem_cons_of_mem _ ht))⟩
  have := h' t (List.mem_cons_self _ _)
  match t with
  | .raw c => simpa using this
  | .ph n => simpa using this

/-- One `replace` pass acts token-wise on a well-formed template. -/
theorem pyReplace_render (n rep : Str) (hn : plainName n = true) :
    ∀ (toks : List Tok), goodToks toks = true →
    pyReplace (placeholder n) rep (render toks) = render (passToks n rep toks) := by
  intro toks
  induction toks with
  | nil => intro _; rfl
  | cons t toks ih =>
    intro hg
    obtain ⟨hhead, htail⟩ := goodToks_cons hg
    rw [render_cons, passToks_cons, render_append]
    match t with
    | .raw c =>
      have hc : c ≠ '$' := hhead
      have hlw : leadsWith (placeholder n) (c :: render toks) = false := by
        have h' : ¬ ('$' = c) := fun h => hc h.symm
        simp [placeholder, leadsWith, h']
      rw [show renderTok (Tok.raw c) = [c] from rfl]
      rw [show ([c] : Str) ++ render toks = c :: render toks from rfl]
      rw [pyReplace_cons_no_match rep hlw, ih htail]
      rfl
    | .ph m =>
      by_cases hm : m = n
      · subst hm
        rw [show renderTok (Tok.ph m) = placeholder m from rfl]
        rw [pyReplace_match rep (render toks) (by simp [placeholder]), ih htail]
        simp [passOneTok, render_raws]
      · have hplain : plainName m = true := hhead
        rw [show renderTok (Tok.ph m) = placeholder m from rfl]
        have hsplit : placeholder m ++ render toks =
            '$' :: (('(' :: (m ++ [')'])) ++ render toks) := by
          simp [placeholder]
        have hmm : leadsWith (placeholder n)
            ('$' :: (('(' :: (m ++ [')'])) ++ render toks)) = false := by
          rw [← hsplit]
          exact leadsWith_placeholder_mismatch (render toks) hplain hn hm
        have hchunk : ∀ c ∈ ('(' :: (m ++ [')'])), c ≠ '$' := by
          intro c hc
          rcases List.mem_cons.mp hc with rfl | hc
          · decide
          · rcases List.mem_append.mp hc with hc | hc
            · exact (plainName_mem hplain c hc).1
            · rcases List.mem_singleton.mp hc with rfl
              decide
        have hchunkstep : pyReplace (placeholder n) rep
            (('(' :: (m ++ [')'])) ++ render toks) =
            ('(' :: (m ++ [')'])) ++ pyReplace (placeholder n) rep (render toks) := by
          rw [show placeholder n = '$' :: ('(' :: (n ++ [')'])) from rfl]
          exact pyReplace_chunk (render toks) hchunk
        rw [hsplit, pyReplace_cons_no_match rep hmm, hchunkstep, ih htail]
        simp [passOneTok, if_neg hm, render_cons, renderTok, render_nil, placeholder]

theorem goodToks_append {l₁ l₂ : List Tok} (h₁ : goodToks l₁ = true)
    (h₂ : goodToks l₂ = true) : goodToks (l₁ ++ l₂) = true := by
  rw [goodToks] at h₁ h₂ ⊢
  rw [List.all_append, h₁, h₂]
  rfl

theorem goodToks_raws {s : Str} (h : noDollar s = true) :
    goodToks (s.map Tok.raw) = true := by
  rw [goodToks, List.all_eq_true]
  intro t ht
  rcases List.mem_map.mp ht with ⟨c, hc, rfl⟩
  simpa using (List.all_eq_true.mp h) c hc

theorem goodToks_passToks {n rep : Str} (hrep : noDollar rep = true) :
    ∀ {toks : List Tok}, goodToks toks = true →
    goodToks (passToks n rep toks) = true := by
  intro toks
  induction toks with
  | nil => intro _; rfl
  | cons t toks ih =>
    intro hg
    obtain ⟨hhead, htail⟩ := goodToks_cons hg
    rw [passToks_cons]
    refine goodToks_append ?_ (ih htail)
    match t with
    | .raw c => simpa [passOneTok, goodToks] using hhead
    | .ph m =>
      by_cases hm : m = n
      · rw [show passOneTok n rep (Tok.ph m) = if m = n then rep.map Tok.raw
            else [Tok.ph m] from rfl, if_pos hm]
        exact goodToks_raws hrep
      · rw [show passOneTok n rep (Tok.ph m) = if m = n then rep.map Tok.raw
            else [Tok.ph m] from rfl, if_neg hm]
        simpa [goodToks] using hhead

theorem substToks_nil_vars : ∀ (toks : List Tok), substToks [] toks = toks := by
  intro toks
  induction toks with
  | nil => rfl
  | cons t toks ih =>
    rw [substToks_cons, ih]
    match t with
    | .raw c => rfl
    | .ph m => rfl

theorem substToks_append (vars : List (Str × PyVal)) :
    ∀ (l₁ l₂ : List Tok), substToks vars (l₁ ++ l₂) =
      substToks vars l₁ ++ substToks vars l₂ := by
  intro l₁ l₂
  induction l₁ with
  | nil => rfl
  | cons t l ih =>
    rw [List.cons_append, substToks_cons, ih, substToks_cons, List.append_assoc]

theorem substToks_raws (vars : List (Str × PyVal)) :
    ∀ (s : Str), substToks vars (s.map Tok.raw) = s.map Tok.raw := by
  intro s
  induction s with
  | nil => rfl
  | cons c s ih => rw [List.map_cons, substToks_cons, ih]; rfl

theorem substToks_step (n : Str) (v : PyVal) (vs : List (Str × PyVal)) :
    ∀ (toks : List Tok),
    substToks ((n, v) :: vs) toks = substToks vs (passToks n (PyVal.toStr v) toks) := by
  intro toks
  induction toks with
  | nil => rfl
  | cons t toks ih =>
    rw [substToks_cons, passToks_cons, substToks_append, ← ih]
    have hone : substOneTok ((n, v) :: vs) t =
        substToks vs (passOneTok n (PyVal.toStr v) t) := by
      match t with
      | .raw c => rfl
      | .ph m =>
        by_cases hm : m = n
        · subst hm
          have hl : lookupVar ((m, v) :: vs) m = some v := by
            simp [lookupVar, List.find?]
          simp [substOneTok, passOneTok, hl, substToks_raws]
        · have hl : lookupVar ((n, v) :: vs) m = lookupVar vs m := by
            have hd : (decide (n = m)) = false :=
              decide_eq_false (fun h => hm h.symm)
            simp [lookupVar, List.find?, hd]
          cases hx : lookupVar vs m <;>
            simp [substOneTok, passOneTok, hl, hx, if_neg hm, substToks_cons, substToks]
    rw [hone]

/-- Sequential substitution acts token-wise on a well-formed template:
each bound placeholder becomes its value's characters, unbound
placeholders survive. -/
theorem substitute_variables_render (vars : List (Str × PyVal))
    (hn : ∀ p ∈ vars, plainName p.1 = true)
    (hv : ∀ p ∈ vars, noDollar (PyVal.toStr p.2) = true) :
    ∀ (toks : List Tok), goodToks toks = true →
    substitute_variables (render toks) vars = render (substToks vars toks) := by
  induction vars with
  | nil => intro toks _; rw [substToks_nil_vars]; rfl
  | cons p vs ih =>
    intro toks hg
    obtain ⟨n, v⟩ := p
    have hstep : substitute_variables (render toks) ((n, v) :: vs) =
        substitute_variables
          (pyReplace (placeholder n) (PyVal.toStr v) (render toks)) vs := rfl
    rw [hstep,
      pyReplace_render n (PyVal.toStr v) (hn (n, v) (List.mem_cons_self _ _)) toks hg,
      ih (fun p h => hn p (List.mem_cons_of_mem _ h))
        (fun p h => hv p (List.mem_cons_of_mem _ h)) _
        (goodToks_passToks (hv (n, v) (List.mem_cons_self _ _)) hg),
      substToks_step]

/-! The simultaneous one-pass substitution also acts token-wise. -/

theorem simulGo_skip (vars : List (Str × PyVal)) :
    ∀ (s : Str) (k : Nat), simulGo vars k s = simulGo vars 0 (s.drop k) := by
  intro s
  induction s with
  | nil => intro k; simp [simulGo]
  | cons c rest ih =>
    intro k
    match k with
    | 0 => rfl
    | m + 1 => simp [simulGo, ih m]

theorem find?_congr {α : Type} (p q : α → Bool) :
    ∀ (l : List α), (∀ a ∈ l, p a = q a) → l.find? p = l.find? q := by
  intro l
  induction l with
  | nil => intro _; rfl
  | cons a l ih =>
    intro h
    have ha := h a (List.mem_cons_self _ _)
    rw [List.find?_cons, List.find?_cons, ha]
    cases q a
    · exact ih (fun a h' => h a (List.mem_cons_of_mem _ h'))
    · rfl

theorem simulGo_no_dollar_head {vars : List (Str × PyVal)} {c : Char} (s : Str)
    (hc : c ≠ '$') :
    simulGo vars 0 (c :: s) = c :: simulGo vars 0 s := by
  rw [simulGo]
  have hfind : vars.find? (fun p => leadsWith (placeholder p.1) (c :: s)) = none := by
    refine List.find?_eq_none.mpr (fun p _ => ?_)
    have h' : ¬ ('$' = c) := fun h => hc h.symm
    simp [placeholder, leadsWith, h']
  rw [hfind]

theorem simulGo_chunk {vars : List (Str × PyVal)} :
    ∀ {chunk : Str} (s : Str), (∀ c ∈ chunk, c ≠ '$') →
    simulGo vars 0 (chunk ++ s) = chunk ++ simulGo vars 0 s := by
  intro chunk
  induction chunk with
  | nil => intro s _; rfl
  | cons c rest ih =>
    intro s hch
    rw [List.cons_append,
      simulGo_no_dollar_head _ (hch c (List.mem_cons_self _ _)),
      ih s (fun c h => hch c (List.mem_cons_of_mem _ h)), List.cons_append]

theorem simulGo_found {vars : List (Str × PyVal)} {c : Char} {s : Str}
    {p : Str × PyVal}
    (h : vars.find? (fun p => leadsWith (placeholder p.1) (c :: s)) = some p) :
    simulGo vars 0 (c :: s) =
      PyVal.toStr p.2 ++ simulGo vars ((placeholder p.1).length - 1) s := by
  rw [simulGo, h]

theorem simulGo_not_found {vars : List (Str × PyVal)} {c : Char} {s : Str}
    (h : vars.find? (fun p => leadsWith (placeholder p.1) (c :: s)) = none) :
    simulGo vars 0 (c :: s) = c :: simulGo vars 0 s := by
  rw [simulGo, h]

theorem lookupVar_eq_find? (vars : List (Str × PyVal)) (m : Str) :
    lookupVar vars m = Option.map Prod.snd (vars.find? (fun p => decide (p.1 = m))) := by
  rw [lookupVar]
  cases vars.find? (fun p => decide (p.1 = m)) <;> rfl

/-- The one-pass scan over a well-formed template substitutes exactly the
bound placeholders. -/
theorem substituteSimultaneous_render (vars : List (Str × PyVal))
    (hn : ∀ p ∈ vars, plainName p.1 = true) :
    ∀ (toks : List Tok), goodToks toks = true →
    substituteSimultaneous vars (render toks) = render (substToks vars toks) := by
  intro toks
  induction toks with
  | nil => intro _; rfl
  | cons t toks ih =>
    intro hg
    obtain ⟨hhead, htail⟩ := goodToks_cons hg
    rw [render_cons, substToks_cons, render_append]
    match t with
    | .raw c =>
      have hc : c ≠ '$' := hhead
      rw [show renderTok (Tok.raw c) = [c] from rfl]
      rw [show ([c] : Str) ++ render toks = c :: render toks from rfl]
      rw [show substituteSimultaneous vars (c :: render toks)
          = simulGo vars 0 (c :: render toks) from rfl]
      rw [simulGo_no_dollar_head _ hc, ← substituteSimultaneous, ih htail]
      rfl
    | .ph m =>
      have hplain : plainName m = true := hhead
      have hsplit : renderTok (Tok.ph m) ++ render toks =
          '$' :: (('(' :: (m ++ [')'])) ++ render toks) := by
        simp [renderTok, placeholder]
      rw [hsplit]
      rw [show substituteSimultaneous vars ('$' :: (('(' :: (m ++ [')'])) ++ render toks))
          = simulGo vars 0 ('$' :: (('(' :: (m ++ [')'])) ++ render toks)) from rfl]
      have hfind : vars.find? (fun p => leadsWith (placeholder p.1)
            ('$' :: (('(' :: (m ++ [')'])) ++ render toks)))
          = vars.find? (fun p => decide (p.1 = m)) := by
        refine find?_congr _ _ vars (fun p hp => ?_)
        have hsplit' : ('$' :: (('(' :: (m ++ [')'])) ++ render toks))
            = placeholder m ++ render toks := by simp [placeholder]
        rw [hsplit']
        by_cases hpm : p.1 = m
        · rw [hpm, leadsWith_append_self]
          simp
        · rw [leadsWith_placeholder_mismatch (render toks) hplain (hn p hp) ?_,
            decide_eq_false hpm]
          exact fun h => hpm h.symm
      cases hx : vars.find? (fun p => decide (p.1 = m)) with
      | none =>
        have hlook : lookupVar vars m = none := by
          rw [lookupVar_eq_find?, hx]; rfl
        have hchunk : ∀ c ∈ ('(' :: (m ++ [')'])), c ≠ '$' := by
          intro c hc
          rcases List.mem_cons.mp hc with rfl | hc
          · decide
          · rcases List.mem_append.mp hc with hc | hc
            · exact (plainName_mem hplain c hc).1
            · rcases List.mem_singleton.mp hc with rfl
              decide
        rw [simulGo_not_found (hfind.trans hx), simulGo_chunk _ hchunk,
          ← substituteSimultaneous, ih htail]
        simp [substOneTok, hlook, render_cons, renderTok, render_nil, placeholder]
      | some p =>
        have hpm : p.1 = m := by
          have := List.find?_some hx
          simpa using this
        have hlen : (placeholder p.1).length - 1 = m.length + 2 := by
          simp [placeholder, hpm]
        have hlook : lookupVar vars m = some p.2 := by
          rw [lookupVar_eq_find?, hx]; rfl
        have hdrop : (('(' :: (m ++ [')'])) ++ render toks).drop (m.length + 2)
            = render toks := by
          have hlchunk : ('(' :: (m ++ [')'])).length = m.length + 2 := by simp
          rw [← hlchunk, List.drop_left]
        rw [simulGo_found (hfind.trans hx), hlen, simulGo_skip, hdrop,
          ← substituteSimultaneous, ih htail]
        simp [substOneTok, hlook, render_raws]

/-! Occurrence lemmas. -/

theorem hasOccur_append_right {pat : Str} :
    ∀ (s₁ : Str) {s₂ : Str}, hasOccur s₂ pat = true → hasOccur (s₁ ++ s₂) pat = true := by
  intro s₁
  induction s₁ with
  | nil => intro s₂ h; exact h
  | cons c s ih =>
    intro s₂ h
    rw [List.cons_append, hasOccur, Bool.or_eq_true]
    exact Or.inr (ih h)

theorem hasOccur_of_leadsWith {pat s : Str} (hpat : pat ≠ [])
    (h : leadsWith pat s = true) : hasOccur s pat = true := by
  match s with
  | [] =>
    match pat, hpat with
    | p :: ps, _ => simp [leadsWith] at h
  | c :: rest =>
    rw [hasOccur, Bool.or_eq_true]
    exact Or.inl h

theorem mem_render_occur {t : Tok} :
    ∀ {toks : List Tok}, t ∈ toks → hasOccur (render toks) (renderTok t) = true := by
  intro toks
  induction toks with
  | nil => intro h; cases h
  | cons t' toks ih =>
    intro h
    rcases List.mem_cons.mp h with rfl | h
    · rw [render_cons]
      have hne : renderTok t ≠ [] := by
        match t with
        | .raw c => simp [renderTok]
        | .ph n => simp [renderTok, placeholder]
      exact hasOccur_of_leadsWith hne (leadsWith_append_self _ _)
    · rw [render_cons]
      exact hasOccur_append_right _ (ih h)

theorem mem_substToks_ph {vars : List (Str × PyVal)} {m : Str} :
    ∀ {toks : List Tok}, Tok.ph m ∈ toks → lookupVar vars m = none →
    Tok.ph m ∈ substToks vars toks := by
  intro toks
  induction toks with
  | nil => intro h; cases h
  | cons t toks ih =>
    intro h hnone
    rw [substToks_cons]
    rcases List.mem_cons.mp h with rfl | h
    · refine List.mem_append.mpr (Or.inl ?_)
      simp [substOneTok, hnone]
    · exact List.mem_append.mpr (Or.inr (ih h hnone))

theorem phCovered_cons {vars : List (Str × PyVal)} {t : Tok} {toks : List Tok}
    (h : phCovered vars (t :: toks) = true) :
    (match t with
     | .raw _ => True
     | .ph m => (lookupVar vars m).isSome = true) ∧ phCovered vars toks = true := by
  have h' := List.all_eq_true.mp h
  refine ⟨?_, List.all_eq_true.mpr (fun t ht => h' t (List.mem_cons_of_mem _ ht))⟩
  have := h' t (List.mem_cons_self _ _)
  match t with
  | .raw c => trivial
  | .ph n => simpa using this

theorem lookupVar_some_mem {vars : List (Str × PyVal)} {m : Str} {v : PyVal}
    (h : lookupVar vars m = some v) : ∃ p ∈ vars, p.2 = v := by
  rw [lookupVar_eq_find?] at h
  cases hx : vars.find? (fun p => decide (p.1 = m)) with
  | none => rw [hx] at h; cases h
  | some p =>
    rw [hx] at h
    refine ⟨p, List.mem_of_find?_eq_some hx, ?_⟩
    have h' : v = p.2 := by simpa using h.symm
    exact h'.symm

theorem noDollar_append {a b : Str} (ha : noDollar a = true) (hb : noDollar b = true) :
    noDollar (a ++ b) = true := by
  rw [noDollar] at ha hb ⊢
  rw [List.all_append, ha, hb]
  rfl

theorem noDollar_render_substToks (vars : List (Str × PyVal))
    (hv : ∀ p ∈ vars, noDollar (PyVal.toStr p.2) = true) :
    ∀ (toks : List Tok), goodToks toks = true → phCovered vars toks = true →
    noDollar (render (substToks vars toks)) = true := by
  intro toks
  induction toks with
  | nil => intro _ _; rfl
  | cons t toks ih =>
    intro hg hcov
    obtain ⟨hghead, hgtail⟩ := goodToks_cons hg
    obtain ⟨hchead, hctail⟩ := phCovered_cons hcov
    rw [substToks_cons, render_append]
    refine noDollar_append ?_ (ih hgtail hctail)
    match t with
    | .raw c =>
      have hc : c ≠ '$' := hghead
      simp [substOneTok, render_cons, render_nil, renderTok, noDollar, hc]
    | .ph m =>
      have hsome : (lookupVar vars m).isSome = true := hchead
      cases hx : lookupVar vars m with
      | none => rw [hx] at hsome; cases hsome
      | some v =>
        rcases lookupVar_some_mem hx with ⟨p, hp, rfl⟩
        simp only [substOneTok, hx, render_raws]
        exact hv p hp

theorem noDollar_no_occur {s : Str} (n : Str) (h : noDollar s = true) :
    hasOccur s (placeholder n) = false := by
  induction s with
  | nil => rfl
  | cons c rest ih =>
    have hc : c ≠ '$' := by simpa using (List.all_eq_true.mp h) c (List.mem_cons_self _ _)
    have htail : noDollar rest = true :=
      List.all_eq_true.mpr (fun c hc => (List.all_eq_true.mp h) c (List.mem_cons_of_mem _ hc))
    have hlw : leadsWith (placeholder n) (c :: rest) = false := by
      have h' : ¬ ('$' = c) := fun h => hc h.symm
      simp [placeholder, leadsWith, h']
    rw [hasOccur, hlw, ih htail]
    rfl

/-- Counterexample refuting claim C4: the contract "every literal
occurrence of `$(name)` replaced by `str(value)`, independently for each
variable" (the simultaneous reading spelled out by the spec) disagrees
with `substitute_variables` as soon as one value introduces a later
variable's placeholder: on template `x=$(a)` with `a = "$(b)"`, `b = "X"`,
the contract yields `x=$(b)` but the code yields `x=X`. -/
theorem substitution_contract_counterexample :
    substituteSimultaneous
        [("a".toList, PyVal.vStr "$(b)".toList), ("b".toList, PyVal.vStr "X".toList)]
        "x=$(a)".toList = "x=$(b)".toList ∧
    substitute_variables "x=$(a)".toList
        [("a".toList, PyVal.vStr "$(b)".toList), ("b".toList, PyVal.vStr "X".toList)]
        = "x=X".toList ∧
    "x=X".toList ≠ "x=$(b)".toList := by
  refine ⟨by decide, by decide, by decide⟩

/-- Amended claim C4: on templates whose every `$` starts a plain-name
placeholder, and for combinations with plain names whose values contain no
`$`, `substitute_variables` agrees with the simultaneous contract: every
occurrence of each bound `$(name)` is replaced by the value's string
representation and placeholders of unbound names are left in the output. -/
theorem substitution_contract (vars : List (Str × PyVal)) (toks : List Tok)
    (hn : ∀ p ∈ vars, plainName p.1 = true)
    (hv : ∀ p ∈ vars, noDollar (PyVal.toStr p.2) = true)
    (ht : goodToks toks = true) :
    substitute_variables (render toks) vars =
      substituteSimultaneous vars (render toks) ∧
    (∀ m, Tok.ph m ∈ toks → lookupVar vars m = none →
      hasOccur (substitute_variables (render toks) vars) (placeholder m) = true) := by
  constructor
  · rw [substitute_variables_render vars hn hv toks ht,
      substituteSimultaneous_render vars hn toks ht]
  · intro m hm hnone
    rw [substitute_variables_render vars hn hv toks ht]
    have hmem : Tok.ph m ∈ substToks vars toks := mem_substToks_ph hm hnone
    have hocc := mem_render_occur hmem
    simpa [renderTok] using hocc

/-- Witness for the amended C4 on the template `x$(a)$(c)` (tokens
`x`, `$(a)`, `$(c)`) with the single binding `a = "1"`. -/
theorem substitution_contract_witness :
    goodToks [Tok.raw 'x', Tok.ph "a".toList, Tok.ph "c".toList] = true ∧
    substitute_variables (render [Tok.raw 'x', Tok.ph "a".toList, Tok.ph "c".toList])
        [("a".toList, PyVal.vStr "1".toList)] =
      substituteSimultaneous [("a".toList, PyVal.vStr "1".toList)]
        (render [Tok.raw 'x', Tok.ph "a".toList, Tok.ph "c".toList]) :=
  ⟨by decide,
    (substitution_contract [("a".toList, PyVal.vStr "1".toList)]
      [Tok.raw 'x', Tok.ph "a".toList, Tok.ph "c".toList]
      (by decide) (by decide) (by decide)).1⟩

/-- Counterexample refuting claim C5: the template `$(n)` contains
placeholders only for the bound name `n`, yet substituting the combination
`{n: "$(n)"}` leaves the token `$(n)` in the result, because the value
itself introduces the placeholder. -/
theorem round_trip_counterexample :
    goodToks [Tok.ph "n".toList] = true ∧
    phCovered [("n".toList, PyVal.vStr "$(n)".toList)] [Tok.ph "n".toList] = true ∧
    render [Tok.ph "n".toList] = "$(n)".toList ∧
    hasOccur (substitute_variables "$(n)".toList
        [("n".toList, PyVal.vStr "$(n)".toList)]) (placeholder "n".toList) = true := by
  refine ⟨by decide, by decide, by decide, by decide⟩

/-- Amended claim C5: when every `$` of the template starts a placeholder
of a bound, plain-named variable and no substituted value contains `$`,
the result of `substitute_variables` contains no `$` at all, hence no
remaining `$(name)` token for any name of the combination. -/
theorem round_trip_no_tokens_left (vars : List (Str × PyVal)) (toks : List Tok)
    (hn : ∀ p ∈ vars, plainName p.1 = true)
    (hv : ∀ p ∈ vars, noDollar (PyVal.toStr p.2) = true)
    (ht : goodToks toks = true) (hcov : phCovered vars toks = true) :
    noDollar (substitute_variables (render toks) vars) = true ∧
    ∀ p ∈ vars,
      hasOccur (substitute_variables (render toks) vars) (placeholder p.1) = false := by
  have hnd : noDollar (substitute_variables (render toks) vars) = true := by
    rw [substitute_variables_render vars hn hv toks ht]
    exact noDollar_render_substToks vars hv toks ht hcov
  exact ⟨hnd, fun p _ => noDollar_no_occur p.1 hnd⟩

/-- Witness for the amended C5 on the template `$(a)` with `a = "v"`. -/
theorem round_trip_no_tokens_left_witness :
    goodToks [Tok.ph "a".toList] = true ∧
    hasOccur (substitute_variables (render [Tok.ph "a".toList])
        [("a".toList, PyVal.vStr "v".toList)]) (placeholder "a".toList) = false :=
  ⟨by decide,
    (round_trip_no_tokens_left [("a".toList, PyVal.vStr "v".toList)]
        [Tok.ph "a".toList] (by decide) (by decide) (by decide) (by decide)).2
      ("a".toList, PyVal.vStr "v".toList) (by decide)⟩

/-! Indexing and distinctness of the enumerated combinations. -/

theorem prodHead_getElem? {α : Type} :
    ∀ (xs : List α) (rest : List (List α)) (i : Nat), i < xs.length * rest.length →
    (prodHead xs rest)[i]? =
      xs[i / rest.length]?.bind (fun x => (rest[i % rest.length]?).map (fun t => x :: t)) := by
  intro xs
  induction xs with
  | nil => intro rest i hi; simp at hi
  | cons x xs ih =>
    intro rest i hi
    have hP : 0 < rest.length := by
      rcases Nat.eq_zero_or_pos rest.length with h | h
      · rw [h, Nat.mul_zero] at hi; cases (Nat.not_lt_zero i) hi
      · exact h
    rw [prodHead]
    by_cases hiP : i < rest.length
    · rw [List.getElem?_append_left (by simpa using hiP), List.getElem?_map,
        Nat.div_eq_of_lt hiP, Nat.mod_eq_of_lt hiP, List.getElem?_cons_zero]
      rfl
    · have hge : rest.length ≤ i := Nat.le_of_not_lt hiP
      obtain ⟨k, rfl⟩ : ∃ k, i = k + rest.length := ⟨i - rest.length, by omega⟩
      rw [List.getElem?_append_right (by simp)]
      have hlen : (rest.map (fun t => x :: t)).length = rest.length := by simp
      rw [hlen]
      have hk2 : k + rest.length - rest.length = k := by omega
      have hrec : k < xs.length * rest.length := by
        rw [List.length_cons, Nat.succ_mul] at hi
        omega
      rw [hk2, ih rest k hrec, Nat.add_div_right _ hP, Nat.add_mod_right,
        List.getElem?_cons_succ]

theorem sufProd_dvd :
    ∀ (sizes : List Nat) (j : Nat) (n : Nat), sizes[j]? = some n →
    n * sufProd sizes j ∣ sizes.prod := by
  intro sizes
  induction sizes with
  | nil => intro j n h; simp at h
  | cons s0 rest ih =>
    intro j n h
    match j with
    | 0 =>
      rw [List.getElem?_cons_zero] at h
      cases h
      rw [sufProd, List.drop_succ_cons, List.drop_zero, List.prod_cons]
    | j' + 1 =>
      rw [List.getElem?_cons_succ] at h
      rw [List.prod_cons, sufProd, List.drop_succ_cons]
      exact dvd_mul_of_dvd_right (by simpa [sufProd] using ih j' n h) s0

theorem mod_div_mod_eq {i P S n : Nat} (h : n * S ∣ P) :
    (i % P) / S % n = i / S % n := by
  rcases h with ⟨A, hA⟩
  rcases Nat.eq_zero_or_pos P with hP | hP
  · rw [hP, Nat.mod_zero]
  · have hA' : P = S * (n * A) := by rw [hA]; ring
    rw [hA', Nat.mod_mul_right_div_self,
      Nat.mod_mod_of_dvd _ (Dvd.intro A rfl)]

theorem pyProduct_getElem? {α : Type} :
    ∀ (ls : List (List α)) (i j : Nat),
    i < (ls.map List.length).prod → j < ls.length →
    ∃ r l v, (pyProduct ls)[i]? = some r ∧ ls[j]? = some l ∧
      l[(i / sufProd (ls.map List.length) j) % l.length]? = some v ∧
      r[j]? = some v := by
  intro ls
  induction ls with
  | nil => intro i j _ hj; simp at hj
  | cons l ls ih =>
    intro i j hi hj
    have hiP : i < l.length * (pyProduct ls).length := by
      rw [pyProduct_length]
      simpa [List.prod_cons] using hi
    have hP : 0 < (pyProduct ls).length := by
      rcases Nat.eq_zero_or_pos (pyProduct ls).length with h | h
      · rw [h, Nat.mul_zero] at hiP; cases (Nat.not_lt_zero i) hiP
      · exact h
    have hq : i / (pyProduct ls).length < l.length :=
      (Nat.div_lt_iff_lt_mul hP).mpr hiP
    have hx : l[i / (pyProduct ls).length]? = some (l.get ⟨_, hq⟩) :=
      List.getElem?_eq_getElem hq
    have hstep := prodHead_getElem? l (pyProduct ls) i hiP
    rw [pyProduct, hstep, hx]
    match j with
    | 0 =>
      have hmod : i % (pyProduct ls).length < (pyProduct ls).length := Nat.mod_lt _ hP
      have ht : (pyProduct ls)[i % (pyProduct ls).length]? =
          some ((pyProduct ls).get ⟨_, hmod⟩) := List.getElem?_eq_getElem hmod
      refine ⟨l.get ⟨_, hq⟩ :: (pyProduct ls).get ⟨_, hmod⟩, l, l.get ⟨_, hq⟩,
        ?_, by rw [List.getElem?_cons_zero], ?_, by rw [List.getElem?_cons_zero]⟩
      · rw [ht]; rfl
      · have hsp : sufProd ((l :: ls).map List.length) 0 = (pyProduct ls).length := by
          rw [sufProd, List.map_cons, List.drop_succ_cons, List.drop_zero,
            pyProduct_length]
        rw [hsp, Nat.mod_eq_of_lt hq]
        exact List.getElem?_eq_getElem hq
    | j' + 1 =>
      have hj' : j' < ls.length := Nat.lt_of_succ_lt_succ hj
      have hmodlt : i % (pyProduct ls).length < (ls.map List.length).prod := by
        rw [← pyProduct_length]
        exact Nat.mod_lt _ hP
      rcases ih (i % (pyProduct ls).length) j' hmodlt hj' with
        ⟨r', l', v, h1, h2, h3, h4⟩
      refine ⟨l.get ⟨_, hq⟩ :: r', l', v, ?_, ?_, ?_, ?_⟩
      · rw [h1]; rfl
      · rw [List.getElem?_cons_succ]; exact h2
      · have hsp : sufProd ((l :: ls).map List.length) (j' + 1) =
            sufProd (ls.map List.length) j' := by
          rw [sufProd, sufProd, List.map_cons, List.drop_succ_cons]
        have hsz : (ls.map List.length)[j']? = some l'.length := by
          rw [List.getElem?_map, h2]; rfl
        have hdvd : l'.length * sufProd (ls.map List.length) j' ∣
            (ls.map List.length).prod := sufProd_dvd _ _ _ hsz
        have hdvd' : l'.length * sufProd (ls.map List.length) j' ∣
            (pyProduct ls).length := by
          rw [pyProduct_length]; exact hdvd
        rw [hsp, ← mod_div_mod_eq hdvd']
        exact h3
      · rw [List.getElem?_cons_succ]; exact h4

theorem nodup_prodHead {α : Type} :
    ∀ {xs : List α} {rest : List (List α)}, xs.Nodup → rest.Nodup →
    (prodHead xs rest).Nodup := by
  intro xs
  induction xs with
  | nil => intro rest _ _; exact List.nodup_nil
  | cons x xs ih =>
    intro rest hx hr
    rw [prodHead]
    refine List.nodup_append.mpr ⟨?_, ih (List.Nodup.of_cons hx) hr, ?_⟩
    · exact hr.map (fun a b h => by injection h)
    · intro a ha hb
      rcases List.mem_map.mp ha with ⟨t, _, rfl⟩
      rcases mem_prodHead hb with ⟨y, hy, t', _, heq⟩
      have hxy : x = y := by injection heq
      exact (List.nodup_cons.mp hx).1 (hxy ▸ hy)

theorem nodup_pyProduct {α : Type} :
    ∀ {ls : List (List α)}, (∀ l ∈ ls, l.Nodup) → (pyProduct ls).Nodup := by
  intro ls
  induction ls with
  | nil => intro _; simp [pyProduct]
  | cons l ls ih =>
    intro h
    exact nodup_prodHead (h l (List.mem_cons_self _ _))
      (ih (fun l' h' => h l' (List.mem_cons_of_mem _ h')))

theorem zip_inj {α β : Type} :
    ∀ {names : List α} {r r' : List β}, r.length = names.length →
    r'.length = names.length → names.zip r = names.zip r' → r = r' := by
  intro names
  induction names with
  | nil =>
    intro r r' hr hr' _
    rw [List.length_eq_zero.mp hr, List.length_eq_zero.mp hr']
  | cons n names ih =>
    intro r r' hr hr' heq
    match r, r' with
    | [], _ => simp at hr
    | _, [] => simp at hr'
    | b :: r, b' :: r' =>
      rw [List.zip_cons_cons, List.zip_cons_cons] at heq
      have h1 : (n, b) = (n, b') := by injection heq
      have h2 : b = b' := by injection h1
      have h3 : r = r' := ih (by simpa using hr) (by simpa using hr')
        (by injection heq)
      rw [h2, h3]

/-- Counterexample refuting claim C1: with non-empty value lists that
contain duplicates, the enumerator still returns n1×…×nk combinations,
but they are not pairwise distinct mappings: `{a: [1, 1]}` yields the
mapping `{a: 1}` twice. -/
theorem combinations_distinct_counterexample :
    (∀ p ∈ [("a".toList, [PyVal.vInt 1, PyVal.vInt 1])], p.2 ≠ ([] : List PyVal)) ∧
    (create_variable_combinations [("a".toList, [PyVal.vInt 1, PyVal.vInt 1])]).length
      = 2 ∧
    ¬ (create_variable_combinations
        [("a".toList, [PyVal.vInt 1, PyVal.vInt 1])]).Nodup := by
  refine ⟨by decide, by decide, by decide⟩

/-- Amended claim C1: for value lists that are non-empty and duplicate-free,
`create_variable_combinations` returns exactly n1×…×nk combinations,
pairwise distinct, each assigning one value to every variable, in the
`itertools.product` order where the rightmost variable varies fastest: the
i-th combination assigns to the j-th variable its value at index
`(i / stride(j)) % nj`, where `stride(j)` is the product of the sizes to
the right of j.  The concrete conjunct checks the four documents of the
`{a: [1, 2], b: ["p", "q"]}` scenario in order. -/
theorem combinations_enumeration (variable_options : List (Str × List PyVal))
    (_hne : ∀ p ∈ variable_options, p.2 ≠ ([] : List PyVal))
    (hnd : ∀ p ∈ variable_options, p.2.Nodup) :
    (create_variable_combinations variable_options).length =
      (variable_options.map (fun p => p.2.length)).prod ∧
    (create_variable_combinations variable_options).Nodup ∧
    (∀ i j, i < (variable_options.map (fun p => p.2.length)).prod →
      j < variable_options.length →
      ∃ r p v, (create_variable_combinations variable_options)[i]? = some r ∧
        variable_options[j]? = some p ∧
        p.2[(i / sufProd (variable_options.map (fun p => p.2.length)) j) % p.2.length]?
          = some v ∧
        r[j]? = some (p.1, v)) ∧
    (create_variable_combinations [("a".toList, [PyVal.vInt 1, PyVal.vInt 2]),
        ("b".toList, [PyVal.vStr "p".toList, PyVal.vStr "q".toList])]).map
      (fun c => substitute_variables "x=$(a) y=$(b)".toList c) =
      ["x=1 y=p".toList, "x=1 y=q".toList, "x=2 y=p".toList, "x=2 y=q".toList] := by
  have hsizes : (variable_options.map Prod.snd).map List.length =
      variable_options.map (fun p => p.2.length) := by
    rw [List.map_map]; rfl
  refine ⟨?_, ?_, ?_, by decide⟩
  · rw [create_variable_combinations, List.length_map, pyProduct_length, hsizes]
  · rw [create_variable_combinations]
    refine List.Nodup.map_on ?_ (nodup_pyProduct ?_)
    · intro r hr r' hr' heq
      have hlr : r.length = (variable_options.map Prod.fst).length := by
        rw [length_of_mem_pyProduct hr]; simp
      have hlr' : r'.length = (variable_options.map Prod.fst).length := by
        rw [length_of_mem_pyProduct hr']; simp
      exact zip_inj hlr hlr' heq
    · intro l hl
      rcases List.mem_map.mp hl with ⟨p, hp, rfl⟩
      exact hnd p hp
  · intro i j hi hj
    have hi' : i < ((variable_options.map Prod.snd).map List.length).prod := by
      rw [hsizes]; exact hi
    have hj' : j < (variable_options.map Prod.snd).length := by
      rw [List.length_map]; exact hj
    rcases pyProduct_getElem? (variable_options.map Prod.snd) i j hi' hj' with
      ⟨r0, l0, v, h1, h2, h3, h4⟩
    have hp : ∃ p, variable_options[j]? = some p ∧ p.2 = l0 := by
      rw [List.getElem?_map] at h2
      rcases Option.map_eq_some'.mp h2 with ⟨p, hp1, hp2⟩
      exact ⟨p, hp1, hp2⟩
    rcases hp with ⟨p, hpj, hpl⟩
    have hname : (variable_options.map Prod.fst)[j]? = some p.1 := by
      rw [List.getElem?_map, hpj]; rfl
    refine ⟨(variable_options.map Prod.fst).zip r0, p, v, ?_, hpj, ?_, ?_⟩
    · rw [create_variable_combinations, List.getElem?_map, h1]
      rfl
    · rw [hpl, ← hsizes]
      exact h3
    · exact List.getElem?_zip_eq_some.mpr ⟨hname, h4⟩

/-- Witness for the amended C1 on the scenario options
`{a: [1, 2], b: ["p", "q"]}`. -/
theorem combinations_enumeration_witness :
    (∀ p ∈ [("a".toList, [PyVal.vInt 1, PyVal.vInt 2]),
        ("b".toList, [PyVal.vStr "p".toList, PyVal.vStr "q".toList])],
      p.2 ≠ ([] : List PyVal)) ∧
    (create_variable_combinations [("a".toList, [PyVal.vInt 1, PyVal.vInt 2]),
        ("b".toList, [PyVal.vStr "p".toList, PyVal.vStr "q".toList])]).length =
      ([("a".toList, [PyVal.vInt 1, PyVal.vInt 2]),
        ("b".toList, [PyVal.vStr "p".toList, PyVal.vStr "q".toList])].map
          (fun p => p.2.length)).prod :=
  ⟨by decide,
    (combinations_enumeration
      [("a".toList, [PyVal.vInt 1, PyVal.vInt 2]),
       ("b".toList, [PyVal.vStr "p".toList, PyVal.vStr "q".toList])]
      (by decide) (by decide)).1⟩

end JobGen
